import Mathlib

/-!
Verification of the reinda asset-resolution builder against its specification.

The builder front-end (`Builder`, `EntryBuilder`, registration and modifier
attachment, `http_paths`, `single_http_path`) is embedded from
`src/builder.rs`. The compile-time `Setup` structure and the code generated
by the `assets!` macro are embedded from `reinda-core/src/lib.rs` and
`reinda-macros/src/lib.rs`. Parts of the crate that are referenced by the
builder but whose sources are not in the repository snapshot (the glob
splitter, the embedded-file types, and the resolution pipeline behind
`Builder::build`) are modelled from the specification; each such definition
carries a doc comment saying so.

Rust strings are modelled as `List Char`, byte buffers as `List Nat`.
All functions are total, so termination of every operation (in particular of
the build pipeline) is inherent in the embedding.
-/

/-- Strings of the Rust code, modelled as lists of characters. -/
abbrev Str := List Char

/-- Byte buffers (`Bytes` in the Rust code), modelled as lists of naturals. -/
abbrev Bytes := List Nat

/-- Rust `str::strip_prefix`: `stripPre p s` returns `some t` when
`s = p ++ t`, and `none` when `p` is not a prefix of `s`. -/
def stripPre : Str → Str → Option Str
  | [], s => some s
  | _ :: _, [] => none
  | p :: ps, c :: cs => if p = c then stripPre ps cs else none

/-- Wildcard characters of a glob pattern. -/
def isWildcard (c : Char) : Bool :=
  c = '*' || c = '?' || c = '['

/-- Modelled from the spec: the glob splitter type `SplitGlob` is not in the
repository snapshot (only its use in `builder.rs` is). Per spec section 4.1 it
decomposes a pattern into its longest literal (wildcard-free) prefix and the
remaining wildcard pattern. -/
structure SplitGlob where
  litPre : Str
  rest : Str
deriving DecidableEq

/-- Modelled from the spec: `SplitGlob::new` splits the pattern at the first
wildcard character, so `litPre` is the longest wildcard-free prefix. -/
def SplitGlob.new (pattern : Str) : SplitGlob :=
  { litPre := pattern.takeWhile (fun c => !isWildcard c),
    rest := pattern.dropWhile (fun c => !isWildcard c) }

/-- Modelled from the spec: the data source of an entry, polymorphic over
on-disk files (read at resolution time) and embedded blobs (already in
memory), per spec section 3. The concrete Rust type is not in the snapshot. -/
inductive DataSource where
  | file (path : Str)
  | embedded (data : Bytes)
deriving DecidableEq

/-- Modelled from the spec: an embedded file, with its path (relative to the
embed point) and its resident content. The Rust type is not in the snapshot;
`builder.rs` uses its `path` field and `data_source()` method. -/
structure EmbeddedFile where
  path : Str
  content : Bytes
deriving DecidableEq

/-- Accessor used by `builder.rs`: an embedded file's data source is its
already-resident blob. -/
def EmbeddedFile.data_source (f : EmbeddedFile) : DataSource :=
  .embedded f.content

/-- Modelled from the spec: an embedded glob, a pattern together with the
files it matched at compile time. -/
structure EmbeddedGlob where
  pattern : Str
  files : List EmbeddedFile
deriving DecidableEq

/-- Modelled from the spec: an embedded entry is either a single file or a
glob, as matched by `Builder::add_embedded`. -/
inductive EmbeddedEntry where
  | single (file : EmbeddedFile)
  | glob (g : EmbeddedGlob)
deriving DecidableEq

/-- Hash policy of an entry (spec section 3): no hash, automatic insertion
before the extension, or insertion between caller-given prefix and suffix. -/
inductive PathHash where
  | none
  | auto
  | inBetween (pre suf : Str)
deriving DecidableEq

/-- Modelled from the spec: the read-only view handed to a `Custom` modifier,
exposing the final resolved paths of exactly the declared dependencies
(spec section 3, `ModifierContext`). -/
structure ModifierContext where
  resolved : List (Str × Str)

/-- Modifier of an entry (spec section 3): pass-through, declared-path fixup
with its dependency list, or a custom transformation function with its
dependency list. -/
inductive Modifier where
  | none
  | pathFixup (paths : List Str)
  | custom (f : Bytes → ModifierContext → Bytes) (deps : List Str)

/-- One matched file of a glob entry (`GlobFile` in `builder.rs`): the path
suffix after the glob's literal prefix, and the file's data source. -/
structure GlobFile where
  suffix : Str
  source : DataSource
deriving DecidableEq

/-- Kind of a registered entry (`EntryBuilderKind` in `builder.rs`): a single
file with its HTTP path, or a glob with the common HTTP prefix, the split
glob and the matched files. -/
inductive EntryBuilderKind where
  | single (http_path : Str) (source : DataSource)
  | glob (httpPre : Str) (g : SplitGlob) (files : List GlobFile)

/-- One registered entry (`EntryBuilder` in `builder.rs`). -/
structure EntryBuilder where
  kind : EntryBuilderKind
  path_hash : PathHash
  modifier : Modifier

/-- The builder (`Builder` in `builder.rs`): the list of registered entries. -/
structure Builder where
  assets : List EntryBuilder

/-- Empty builder, the starting state. -/
def Builder.empty : Builder := { assets := [] }

/-- Embedding of `Builder::add_file`: push a single-file entry backed by a
filesystem path, with no hash and no modifier. The Rust method returns a
mutable reference to the pushed (last) entry. -/
def Builder.add_file (b : Builder) (http_path : Str) (fs_path : Str) : Builder :=
  { assets := b.assets ++
      [{ kind := .single http_path (.file fs_path),
         path_hash := .none,
         modifier := .none }] }

/-- Embedding of `Builder::add_embedded_file`: push a single-file entry backed
by the embedded file's data source. -/
def Builder.add_embedded_file (b : Builder) (http_path : Str) (file : EmbeddedFile) :
    Builder :=
  { assets := b.assets ++
      [{ kind := .single http_path file.data_source,
         path_hash := .none,
         modifier := .none }] }

/-- Strip the split glob's literal prefix from each matched file, building the
`GlobFile` list of `Builder::add_embedded_glob`. The Rust code calls
`.expect(..)` on each `strip_prefix`, so a file whose path does not start with
the prefix panics; the panic is modelled as `none`. -/
def globFilesOf (sg : SplitGlob) : List EmbeddedFile → Option (List GlobFile)
  | [] => some []
  | f :: fs => do
      let suf ← stripPre sg.litPre f.path
      let restFiles ← globFilesOf sg fs
      pure ({ suffix := suf, source := f.data_source } :: restFiles)

/-- Embedding of `Builder::add_embedded_glob`: split the pattern, strip its
literal prefix from every matched file path, and push a glob entry. `none`
models the panic when some file path does not start with the prefix. -/
def Builder.add_embedded_glob (b : Builder) (http_path : Str) (g : EmbeddedGlob) :
    Option Builder :=
  let sg := SplitGlob.new g.pattern
  (globFilesOf sg g.files).map fun files =>
    { assets := b.assets ++
        [{ kind := .glob http_path sg files,
           path_hash := .none,
           modifier := .none }] }

/-- Embedding of `Builder::add_embedded`: dispatch on the embedded entry's
variant to the corresponding registration method. -/
def Builder.add_embedded (b : Builder) (http_path : Str) :
    EmbeddedEntry → Option Builder
  | .single file => some (b.add_embedded_file http_path file)
  | .glob g => b.add_embedded_glob http_path g

/-- Embedding of `EntryBuilder::with_hash`: set the hash policy to `Auto`. -/
def EntryBuilder.with_hash (e : EntryBuilder) : EntryBuilder :=
  { e with path_hash := .auto }

/-- Embedding of `EntryBuilder::with_path_fixup`: replace the modifier by a
`PathFixup` holding the given dependency paths in order. -/
def EntryBuilder.with_path_fixup (e : EntryBuilder) (paths : List Str) : EntryBuilder :=
  { e with modifier := .pathFixup paths }

/-- Embedding of `EntryBuilder::with_modifier`: replace the modifier by a
`Custom` holding the function and the given dependency paths in order. -/
def EntryBuilder.with_modifier (e : EntryBuilder)
    (dependencies : List Str) (modifier : Bytes → ModifierContext → Bytes) :
    EntryBuilder :=
  { e with modifier := .custom modifier dependencies }

/-- Embedding of `GlobFile::http_path`: the HTTP prefix followed by the file's
suffix. -/
def GlobFile.http_path (f : GlobFile) (httpPre : Str) : Str :=
  httpPre ++ f.suffix

/-- Embedding of `EntryBuilder::http_paths`: the single declared path, or one
suffix-derived path per matched file of a glob. -/
def EntryBuilder.http_paths (e : EntryBuilder) : List Str :=
  match e.kind with
  | .single http_path _ => [http_path]
  | .glob httpPre _ files => files.map (fun f => f.http_path httpPre)

/-- Embedding of `EntryBuilder::single_http_path`: the declared path of a
single entry, the one expanded path of a glob that matched exactly one file,
and `none` otherwise. -/
def EntryBuilder.single_http_path (e : EntryBuilder) : Option Str :=
  match e.kind with
  | .single http_path _ => some http_path
  | .glob httpPre _ files =>
      if h : files.length = 1 then
        some ((files.get ⟨0, by omega⟩).http_path httpPre)
      else
        none

/-- Declared HTTP paths of all entries of a builder, glob entries expanded. -/
def Builder.declaredPaths (b : Builder) : List Str :=
  b.assets.flatMap EntryBuilder.http_paths

/-! The compile-time side: `reinda-core`'s `Setup` and the code generated by
the `assets!` macro of `reinda-macros`. -/

/-- Per-asset options parsed by the macro (`Asset` in `reinda-macros`). -/
structure Asset where
  hash : Bool
  serve : Bool
  dynamic : Bool
  template : Bool
  append : Option Str
  prepend : Option Str
deriving DecidableEq

/-- Embedding of `reinda-core`'s `AssetId`, an index into the asset list. The
Rust field is a `u32`; the macro aborts compilation beyond `2^32` assets, so
the value is modelled as a plain natural. -/
structure AssetId where
  id : Nat
deriving DecidableEq

/-- Embedding of `reinda-core`'s `AssetDef` (the `content` field is compiled
out under `debug_assertions` and carries no behavior used by the claims). -/
structure AssetDef where
  path : Str
  serve : Bool
  dynamic : Bool
  hash : Bool
  template : Bool
  append : Option Str
  prepend : Option Str
deriving DecidableEq

/-- Embedding of `reinda-core`'s `Setup`: the asset definitions, the
generated path-to-id function, and the base path. -/
structure Setup where
  assets : List AssetDef
  pathToId : Str → Option AssetId
  base_path : Str

/-- Embedding of `Setup::path_to_id`: call the stored function. -/
def Setup.path_to_id (s : Setup) (path : Str) : Option AssetId :=
  s.pathToId path

/-- Embedding of `Setup::def` (named `defOf` since `def` is reserved): index
into the asset list; the Rust out-of-bounds panic is modelled as `none`. -/
def Setup.defOf (s : Setup) (id : AssetId) : Option AssetDef :=
  s.assets.get? id.id

/-- Embedding of `Setup::asset_by_path`: translate the path to an id and look
up the definition. -/
def Setup.asset_by_path (s : Setup) (path : Str) : Option AssetDef :=
  (s.path_to_id path).bind fun id => s.defOf id

/-- Index of the first element satisfying the predicate. This is the
semantics of the `match` the macro generates: arms are tried in declaration
order and the first hit wins. -/
def firstIdx (p : α → Bool) : List α → Option Nat
  | [] => none
  | x :: xs => if p x then some 0 else (firstIdx p xs).map (· + 1)

/-- One `AssetDef` as emitted by the macro's `quote!` template for a declared
path and its options. -/
def macroAssetDef (p : Str) (a : Asset) : AssetDef :=
  { path := p, serve := a.serve, dynamic := a.dynamic, hash := a.hash,
    template := a.template, append := a.append, prepend := a.prepend }

/-- Semantics of the code generated by `run` in `reinda-macros`: the asset
definitions in declaration order, and a path-to-id function whose match arms
map the i-th declared path to `AssetId(i)`, falling through to `None`. -/
def macroSetup (base_path : Str) (assetsIn : List (Str × Asset)) : Setup :=
  { base_path := base_path,
    assets := assetsIn.map fun pa => macroAssetDef pa.1 pa.2,
    pathToId := fun s => (firstIdx (fun pa => pa.1 == s) assetsIn).map AssetId.mk }

/-! The resolution pipeline behind `Builder::build`. The Rust implementation
(`crate::imp::AssetsInner::build`) is not in the repository snapshot, so the
pipeline is modelled from spec sections 4.2 to 4.8: glob expansion,
dependency-graph construction over declared paths, topological scheduling
with cycle detection (by incremental in-degree reduction, one of the two
schemes the spec allows), content loading, modifier application, hashing,
and assembly of the final table. -/

/-- Modelled from the spec (section 4.2): one concrete entry after glob
expansion, owning a single declared path and data source and inheriting the
parent's hash policy and modifier. -/
structure ExpEntry where
  declaredPath : Str
  source : DataSource
  path_hash : PathHash
  modifier : Modifier

instance : Inhabited ExpEntry :=
  ⟨{ declaredPath := [], source := .embedded [], path_hash := .none,
     modifier := .none }⟩

/-- Modelled from the spec (section 4.2): expansion of one registered entry
into concrete entries, one per matched file for globs. -/
def EntryBuilder.expand (e : EntryBuilder) : List ExpEntry :=
  match e.kind with
  | .single http_path source =>
      [{ declaredPath := http_path, source := source,
         path_hash := e.path_hash, modifier := e.modifier }]
  | .glob httpPre _ files =>
      files.map fun f =>
        { declaredPath := f.http_path httpPre, source := f.source,
          path_hash := e.path_hash, modifier := e.modifier }

/-- Modelled from the spec (section 4.2): the flattened entry table. -/
def Builder.expand (b : Builder) : List ExpEntry :=
  b.assets.flatMap EntryBuilder.expand

/-- Dependency path strings declared by a modifier. -/
def Modifier.depsList : Modifier → List Str
  | .none => []
  | .pathFixup ps => ps
  | .custom _ ds => ds

/-- Modelled from the spec: build-time errors of the pipeline
(spec section 7, kinds a to e). -/
inductive BuildError where
  | unresolvedDependency (entry : Nat) (path : Str)
  | cyclicDependency (cyc : List Nat)
  | loadFailure (entry : Nat) (path : Str)
  | pathCollision (path : Str)
  | malformedHashInsertion (entry : Nat)
deriving DecidableEq

/-- Indices of all entries whose declared path equals `d` (spec section 4.3:
dependency strings are matched exactly against the declared-path table). -/
def idxsOf (paths : List Str) (d : Str) : List Nat :=
  (List.range paths.length).filter (fun j => paths.getD j [] == d)

/-- Modelled from the spec (section 4.3): resolve the dependency strings of
entry `i` to entry indices; a string matching no declared path is an
unresolved-dependency error. -/
def resolveDeps (paths : List Str) (i : Nat) : List Str → Except BuildError (List Nat)
  | [] => .ok []
  | d :: rest =>
      if (idxsOf paths d).isEmpty then
        .error (.unresolvedDependency i d)
      else do
        let r ← resolveDeps paths i rest
        .ok (idxsOf paths d ++ r)

/-- Modelled from the spec (section 4.3): the dependency lists of all entries
from position `i` on, index-aligned with the entry table. -/
def buildDepLists (paths : List Str) : Nat → List ExpEntry → Except BuildError (List (List Nat))
  | _, [] => .ok []
  | i, e :: rest => do
      let ds ← resolveDeps paths i e.modifier.depsList
      let others ← buildDepLists paths (i + 1) rest
      .ok (ds :: others)

/-- An entry is ready when all its dependencies have been emitted. -/
def ready (g : List (List Nat)) (emitted : List Nat) (i : Nat) : Bool :=
  (g.getD i []).all (fun j => emitted.contains j)

/-- Modelled from the spec (section 4.4, incremental in-degree reduction):
one scheduling round appends every not-yet-emitted ready entry. -/
def kahnRound (g : List (List Nat)) (emitted : List Nat) : List Nat :=
  emitted ++ (List.range g.length).filter
    (fun i => !emitted.contains i && ready g emitted i)

/-- Iterated scheduling rounds starting from the empty emission list. -/
def kahnIter (g : List (List Nat)) : Nat → List Nat
  | 0 => []
  | k + 1 => kahnRound g (kahnIter g k)

/-- Consecutive elements of the list are dependency edges: each next element
is a dependency of the previous one. -/
def isChainB (g : List (List Nat)) : List Nat → Bool
  | [] => true
  | [_] => true
  | x :: y :: rest => (g.getD x []).contains y && isChainB g (y :: rest)

/-- The list is a complete dependency cycle: nonempty, consecutive elements
are edges, and the first element is a dependency of the last. -/
def isCycleB (g : List (List Nat)) (c : List Nat) : Bool :=
  match c with
  | [] => false
  | a :: _ => isChainB g c && (g.getD (c.getLastD 0) []).contains a

/-- First dependency of `i` that has not been emitted. -/
def stepDep (g : List (List Nat)) (emitted : List Nat) (i : Nat) : Option Nat :=
  (g.getD i []).find? (fun j => !emitted.contains j)

/-- Walk along not-yet-emitted dependencies for `k` steps. -/
def stuckWalk (g : List (List Nat)) (emitted : List Nat) : Nat → Nat → List Nat
  | 0, i => [i]
  | k + 1, i =>
      match stepDep g emitted i with
      | some j => i :: stuckWalk g emitted k j
      | none => [i]

/-- First element that appears again later, with the segment up to (and
excluding) its second occurrence; on a duplicate-free list, `none`. -/
def firstRepeat : List Nat → Option (List Nat)
  | [] => none
  | x :: xs =>
      if x ∈ xs then some (x :: xs.takeWhile (fun y => y != x))
      else firstRepeat xs

/-- Modelled from the spec (section 4.4): extract a representative cycle from
a stuck scheduler state by walking unresolved dependencies until a node
repeats. -/
def extractCycle (g : List (List Nat)) (emitted : List Nat) : List Nat :=
  match (List.range g.length).filter (fun i => !emitted.contains i) with
  | [] => []
  | r :: _ => (firstRepeat (stuckWalk g emitted (g.length + 1) r)).getD []

/-- Modelled from the spec (section 4.4): run `n` scheduling rounds; if not
every entry was emitted, the configuration is cyclic and a representative
cycle is reported. -/
def topoOrder (g : List (List Nat)) : Except BuildError (List Nat) :=
  let final := kahnIter g g.length
  if final.length = g.length then .ok final
  else .error (.cyclicDependency (extractCycle g final))

/-- Encoding of a path string into bytes for substitution inside content. -/
def strBytes (s : Str) : Bytes :=
  s.map Char.toNat

/-- Replace every occurrence of `pat` by `repl`, scanning left to right. -/
def replaceAll (pat repl : Bytes) (l : Bytes) : Bytes :=
  match l with
  | [] => []
  | b :: rest =>
      if pat.isPrefixOf (b :: rest) ∧ pat ≠ [] then
        repl ++ replaceAll pat repl (rest.drop (pat.length - 1))
      else
        b :: replaceAll pat repl rest
termination_by l.length
decreasing_by
  · simp only [List.length_cons]
    have := List.length_drop (pat.length - 1) rest
    omega
  · simp

/-- Modelled from the spec (section 4.6): a deterministic content digest,
a pure function of the final bytes. -/
def digest (content : Bytes) : Str :=
  Nat.toDigits 16 (content.foldl (fun a b => (a * 31 + b) % 4294967296) 0)

/-- Modelled from the spec (section 4.6): insert a hash segment immediately
before the last path segment's extension. -/
def insertHashAuto (path h : Str) : Str :=
  let ext := (path.reverse.takeWhile (fun c => c != '.')).reverse
  if ext.length = path.length then path ++ '.' :: h
  else path.take (path.length - ext.length - 1) ++ '.' :: (h ++ '.' :: ext)

/-- Modelled from the spec (section 4.6): produce the final path under the
entry's hash policy; an `InBetween` pair that does not frame the declared
path is a malformed-hash-insertion error. -/
def applyHash (i : Nat) (ph : PathHash) (path : Str) (content : Bytes) :
    Except BuildError Str :=
  match ph with
  | .none => .ok path
  | .auto => .ok (insertHashAuto path (digest content))
  | .inBetween pre suf =>
      if pre.isPrefixOf path && suf.isSuffixOf path then
        .ok (pre ++ digest content ++ suf)
      else
        .error (.malformedHashInsertion i)

/-- Final path recorded for the dependency with declared path `d`: the first
matching entry's accumulated final path. -/
def depFinal (paths : List Str) (finals : List (Nat × Str)) (d : Str) : Option Str :=
  (idxsOf paths d).head?.bind fun j => finals.lookup j

/-- Modelled from the spec (section 4.7): apply the entry's modifier.
`PathFixup` substitutes each dependency's declared path by its final path
inside the content; `Custom` invokes the stored function with a context
holding exactly the declared dependencies' final paths. -/
def applyModifier (paths : List Str) (finals : List (Nat × Str))
    (m : Modifier) (content : Bytes) : Bytes :=
  match m with
  | .none => content
  | .pathFixup ds =>
      ds.foldl (fun acc d =>
        match depFinal paths finals d with
        | some fp => replaceAll (strBytes d) (strBytes fp) acc
        | Option.none => acc) content
  | .custom f ds =>
      f content
        { resolved := ds.filterMap fun d =>
            (depFinal paths finals d).map fun fp => (d, fp) }

/-- Modelled from the spec (section 4.5): obtain an entry's raw bytes;
embedded blobs are immediate, filesystem reads go through the environment
`fs` and a miss is a load failure. -/
def loadContent (fs : Str → Option Bytes) (i : Nat) :
    DataSource → Except BuildError Bytes
  | .embedded data => .ok data
  | .file p =>
      match fs p with
      | some bs => .ok bs
      | Option.none => .error (.loadFailure i p)

/-- Modelled from the spec (sections 4.5 to 4.7): resolve one entry — load,
modify with the already-resolved dependency finals, hash — producing its
identifier, final path and final content. -/
def resolveOne (entries : List ExpEntry) (paths : List Str)
    (fs : Str → Option Bytes) (finals : List (Nat × Str)) (i : Nat) :
    Except BuildError (Nat × Str × Bytes) := do
  let e := entries.getD i default
  let content ← loadContent fs i e.source
  let modified := applyModifier paths finals e.modifier content
  let finalPath ← applyHash i e.path_hash e.declaredPath modified
  .ok (i, finalPath, modified)

/-- Modelled from the spec: resolve all entries in scheduler order,
accumulating each entry's final path for use by later modifiers. -/
def resolveAll (entries : List ExpEntry) (paths : List Str)
    (fs : Str → Option Bytes) :
    List Nat → List (Nat × Str) → Except BuildError (List (Nat × Str × Bytes))
  | [], _ => .ok []
  | i :: rest, finals => do
      let r ← resolveOne entries paths fs finals i
      let out ← resolveAll entries paths fs rest ((i, r.2.1) :: finals)
      .ok (r :: out)

/-- First path that occurs twice in the list, if any. -/
def findDup : List Str → Option Str
  | [] => none
  | x :: xs => if x ∈ xs then some x else findDup xs

/-- Modelled from the spec: the whole pipeline behind `Builder::build`
(sections 4.2 to 4.8) — expand, build the dependency graph, schedule
topologically, resolve every entry in order, and assemble the table after
checking final paths for collisions. The result keeps each record's entry
identifier, per the assembler contract of section 4.8. -/
def Builder.buildModel (b : Builder) (fs : Str → Option Bytes) :
    Except BuildError (List (Nat × Str × Bytes)) := do
  let entries := b.expand
  let paths := entries.map (fun e => e.declaredPath)
  let g ← buildDepLists paths 0 entries
  let order ← topoOrder g
  let records ← resolveAll entries paths fs order []
  match findDup (records.map (fun r => r.2.1)) with
  | some p => .error (.pathCollision p)
  | Option.none => .ok records

/-! Helper lemmas. -/

theorem stripPre_eq_some_iff (p : Str) : ∀ (s t : Str),
    stripPre p s = some t ↔ s = p ++ t := by
  induction p with
  | nil => intro s t; simp [stripPre]
  | cons a ps ih =>
    intro s t
    cases s with
    | nil => simp [stripPre]
    | cons c cs =>
      by_cases h : a = c
      · subst h
        simp [stripPre, ih]
      · simp [stripPre, h, Ne.symm h]

theorem stripPre_append (p t : Str) : stripPre p (p ++ t) = some t := by
  rw [stripPre_eq_some_iff]

theorem append_drop_of_isPrefixOf (p s : Str) (h : p.isPrefixOf s) :
    p ++ s.drop p.length = s := by
  obtain ⟨t, rfl⟩ := List.isPrefixOf_iff_prefix.mp h
  rw [List.drop_left]

theorem globFilesOf_eq_some (sg : SplitGlob) (fs : List EmbeddedFile)
    (h : ∀ f ∈ fs, sg.litPre.isPrefixOf f.path) :
    globFilesOf sg fs = some (fs.map fun f =>
      { suffix := f.path.drop sg.litPre.length, source := f.data_source }) := by
  induction fs with
  | nil => rfl
  | cons f rest ih =>
    have hp : sg.litPre.isPrefixOf f.path := h f (by simp)
    have hstrip : stripPre sg.litPre f.path = some (f.path.drop sg.litPre.length) := by
      rw [stripPre_eq_some_iff]
      exact (append_drop_of_isPrefixOf _ _ hp).symm
    have hrest := ih (fun f hf => h f (by simp [hf]))
    simp [globFilesOf, hstrip, hrest]

/-! Claim theorems C5, C6, C7, C9. -/

/-- C5: `with_path_fixup(D)` sets the entry's modifier to `PathFixup D` and
`with_modifier(D, f)` sets it to `Custom f D`, each keeping the dependency
list exactly in order; neither call changes the entry's kind or hash policy,
and the later of two calls fully replaces the earlier modifier. -/
theorem c5_modifier_attachment (e : EntryBuilder) (d d2 : List Str)
    (f : Bytes → ModifierContext → Bytes) :
    (e.with_path_fixup d).modifier = .pathFixup d ∧
    (e.with_path_fixup d).kind = e.kind ∧
    (e.with_path_fixup d).path_hash = e.path_hash ∧
    (e.with_modifier d f).modifier = .custom f d ∧
    (e.with_modifier d f).kind = e.kind ∧
    (e.with_modifier d f).path_hash = e.path_hash ∧
    ((e.with_modifier d f).with_path_fixup d2).modifier = .pathFixup d2 ∧
    ((e.with_path_fixup d2).with_modifier d f).modifier = .custom f d :=
  ⟨rfl, rfl, rfl, rfl, rfl, rfl, rfl, rfl⟩

/-- C6: `http_paths` returns exactly the one registered path for a
single-file entry, and one suffix-derived path per matched file for a glob
entry. -/
theorem c6_http_paths (p : Str) (src : DataSource) (hpre : Str) (sg : SplitGlob)
    (files : List GlobFile) (ph ph2 : PathHash) (m m2 : Modifier) :
    EntryBuilder.http_paths ⟨.single p src, ph, m⟩ = [p] ∧
    EntryBuilder.http_paths ⟨.glob hpre sg files, ph2, m2⟩ =
      files.map (fun f => f.http_path hpre) :=
  ⟨rfl, rfl⟩

/-- C7: `add_embedded` produces exactly the state of `add_embedded_file` on a
single embedded entry and of `add_embedded_glob` on a glob entry (in both
cases the returned entry reference is the newly pushed last entry). -/
theorem c7_add_embedded_equiv (b : Builder) (p : Str) (f : EmbeddedFile)
    (g : EmbeddedGlob) :
    b.add_embedded p (.single f) = some (b.add_embedded_file p f) ∧
    b.add_embedded p (.glob g) = b.add_embedded_glob p g :=
  ⟨rfl, rfl⟩

/-- C9: `single_http_path` returns `some p` exactly when `http_paths` is the
one-element list `[p]`; in particular a glob entry that matched zero or at
least two files yields `none`. -/
theorem c9_single_http_path (e : EntryBuilder) (p : Str) :
    e.single_http_path = some p ↔ e.http_paths = [p] := by
  obtain ⟨k, ph, m⟩ := e
  cases k with
  | single q src =>
    simp [EntryBuilder.single_http_path, EntryBuilder.http_paths]
  | glob hpre sg files =>
    match files with
    | [] =>
      simp [EntryBuilder.single_http_path, EntryBuilder.http_paths]
    | [f] =>
      simp [EntryBuilder.single_http_path, EntryBuilder.http_paths]
    | f :: f2 :: rest =>
      simp [EntryBuilder.single_http_path, EntryBuilder.http_paths]

/-! Claim theorems C1, C10 (glob registration), C2 (path uniqueness). -/

/-- C1: a glob entry registered at HTTP prefix `p` expands to exactly one
declared path per matched file, equal to `p` followed by the file's path with
the glob pattern's literal prefix stripped. -/
theorem c1_glob_declared_paths (b : Builder) (p : Str) (g : EmbeddedGlob)
    (h : ∀ f ∈ g.files, (SplitGlob.new g.pattern).litPre.isPrefixOf f.path) :
    ∃ b', b.add_embedded_glob p g = some b' ∧
      ∃ e, b'.assets = b.assets ++ [e] ∧
        e.http_paths = g.files.map
          (fun f => p ++ f.path.drop (SplitGlob.new g.pattern).litPre.length) := by
  have hg : b.add_embedded_glob p g = some
      { assets := b.assets ++
          [{ kind := .glob p (SplitGlob.new g.pattern)
               (g.files.map fun f =>
                 { suffix := f.path.drop (SplitGlob.new g.pattern).litPre.length,
                   source := f.data_source }),
             path_hash := .none,
             modifier := .none }] } := by
    simp only [Builder.add_embedded_glob, globFilesOf_eq_some _ _ h]
    rfl
  refine ⟨_, hg, _, rfl, ?_⟩
  simp [EntryBuilder.http_paths, GlobFile.http_path]

/-- Witness for C1 at the spec's end-to-end scenario: a glob over embedded
files `img/a.png` and `img/b.png` registered at prefix `/static/img/` yields
declared paths `/static/img/a.png` and `/static/img/b.png`. -/
theorem c1_glob_declared_paths_witness :
    (∃ b', Builder.empty.add_embedded_glob "/static/img/".toList
        (EmbeddedGlob.mk "img/*.png".toList
          [EmbeddedFile.mk "img/a.png".toList [], EmbeddedFile.mk "img/b.png".toList []]) =
          some b' ∧
      ∃ e, b'.assets = Builder.empty.assets ++ [e] ∧
        e.http_paths =
          ([EmbeddedFile.mk "img/a.png".toList [], EmbeddedFile.mk "img/b.png".toList []]).map
            (fun f => "/static/img/".toList ++
              f.path.drop (SplitGlob.new "img/*.png".toList).litPre.length)) ∧
    ([EmbeddedFile.mk "img/a.png".toList [], EmbeddedFile.mk "img/b.png".toList []]).map
        (fun f => "/static/img/".toList ++
          f.path.drop (SplitGlob.new "img/*.png".toList).litPre.length) =
      ["/static/img/a.png".toList, "/static/img/b.png".toList] :=
  ⟨c1_glob_declared_paths Builder.empty "/static/img/".toList
    (EmbeddedGlob.mk "img/*.png".toList
      [EmbeddedFile.mk "img/a.png".toList [], EmbeddedFile.mk "img/b.png".toList []])
    (by decide), by decide⟩

/-- C10: when every matched file's path starts with the glob pattern's
literal prefix, `add_embedded_glob` does not panic and each stored suffix
satisfies `prefix ++ suffix = original path`; and on a glob containing a file
whose path does not start with that prefix it panics (modelled as `none`). -/
theorem c10_glob_strip_safety (b : Builder) (p : Str) (g : EmbeddedGlob) :
    ((∀ f ∈ g.files, (SplitGlob.new g.pattern).litPre.isPrefixOf f.path) →
      ∃ b', b.add_embedded_glob p g = some b' ∧
        b'.assets = b.assets ++
          [{ kind := .glob p (SplitGlob.new g.pattern)
               (g.files.map fun f =>
                 { suffix := f.path.drop (SplitGlob.new g.pattern).litPre.length,
                   source := f.data_source }),
             path_hash := .none,
             modifier := .none }] ∧
        ∀ f ∈ g.files,
          (SplitGlob.new g.pattern).litPre ++
              f.path.drop (SplitGlob.new g.pattern).litPre.length = f.path) ∧
    Builder.empty.add_embedded_glob "/static/".toList
      (EmbeddedGlob.mk "img/*.png".toList [EmbeddedFile.mk "other.png".toList []]) =
      none := by
  constructor
  · intro h
    have hg : b.add_embedded_glob p g = some
        { assets := b.assets ++
            [{ kind := .glob p (SplitGlob.new g.pattern)
                 (g.files.map fun f =>
                   { suffix := f.path.drop (SplitGlob.new g.pattern).litPre.length,
                     source := f.data_source }),
               path_hash := .none,
               modifier := .none }] } := by
      simp only [Builder.add_embedded_glob, globFilesOf_eq_some _ _ h]
      rfl
    exact ⟨_, hg, rfl, fun f hf => append_drop_of_isPrefixOf _ _ (h f hf)⟩
  · rfl

/-- Witness for C10: the no-panic branch applied to a concrete well-formed
glob. -/
theorem c10_glob_strip_safety_witness :
    ∃ b', Builder.empty.add_embedded_glob "/static/img/".toList
        (EmbeddedGlob.mk "img/*.png".toList [EmbeddedFile.mk "img/a.png".toList []]) =
        some b' ∧
      b'.assets = Builder.empty.assets ++
        [{ kind := .glob "/static/img/".toList
             (SplitGlob.new "img/*.png".toList)
             (([EmbeddedFile.mk "img/a.png".toList []]).map fun f =>
               { suffix := f.path.drop
                   (SplitGlob.new "img/*.png".toList).litPre.length,
                 source := f.data_source }),
           path_hash := .none,
           modifier := .none }] ∧
      ∀ f ∈ [EmbeddedFile.mk "img/a.png".toList []],
        (SplitGlob.new "img/*.png".toList).litPre ++
            f.path.drop (SplitGlob.new "img/*.png".toList).litPre.length = f.path :=
  (c10_glob_strip_safety Builder.empty "/static/img/".toList
    (EmbeddedGlob.mk "img/*.png".toList [EmbeddedFile.mk "img/a.png".toList []])).1
    (by decide)

/-- C2 counterexample: two `add_file` calls may register the same declared
path, so declared-path uniqueness is not an invariant maintained by the
Builder operations. -/
theorem c2_uniqueness_counterexample :
    ¬ List.Pairwise (fun a b => a ≠ b)
      ((Builder.empty.add_file "a".toList "x".toList).add_file
        "a".toList "y".toList).declaredPaths := by
  decide

/-- C2 as amended: registration calls append their declared paths without any
uniqueness check, so pairwise-distinctness of declared paths is a caller
obligation; it is preserved by a registration exactly when the added path is
fresh. -/
theorem c2_registration_appends (b : Builder) (p fsp : Str) (f : EmbeddedFile)
    (g : EmbeddedGlob) :
    (b.add_file p fsp).declaredPaths = b.declaredPaths ++ [p] ∧
    (b.add_embedded_file p f).declaredPaths = b.declaredPaths ++ [p] ∧
    (∀ b', b.add_embedded_glob p g = some b' →
      ∃ e, b'.assets = b.assets ++ [e] ∧
        b'.declaredPaths = b.declaredPaths ++ e.http_paths) ∧
    (List.Pairwise (fun a c => a ≠ c) b.declaredPaths → p ∉ b.declaredPaths →
      List.Pairwise (fun a c => a ≠ c) (b.add_file p fsp).declaredPaths) := by
  have hadd : (b.add_file p fsp).declaredPaths = b.declaredPaths ++ [p] := by
    simp [Builder.declaredPaths, Builder.add_file, EntryBuilder.http_paths]
  refine ⟨hadd, ?_, ?_, ?_⟩
  · simp [Builder.declaredPaths, Builder.add_embedded_file, EntryBuilder.http_paths]
  · intro b' hb'
    simp only [Builder.add_embedded_glob] at hb'
    cases hgf : globFilesOf (SplitGlob.new g.pattern) g.files with
    | none => simp [hgf] at hb'
    | some files =>
      simp only [hgf, Option.map_some', Option.some.injEq] at hb'
      subst hb'
      exact ⟨_, rfl, by simp [Builder.declaredPaths]⟩
  · intro hnd hfresh
    rw [hadd, List.pairwise_append]
    refine ⟨hnd, by simp, ?_⟩
    intro a ha c hc
    simp only [List.mem_singleton] at hc
    subst hc
    exact fun hac => hfresh (hac ▸ ha)

/-- Witness for C2 as amended: appending a fresh path preserves pairwise
distinctness on a concrete builder. -/
theorem c2_registration_appends_witness :
    List.Pairwise (fun a c => a ≠ c)
      ((Builder.empty.add_file "a".toList "x".toList).add_file
        "b".toList "y".toList).declaredPaths :=
  (c2_registration_appends (Builder.empty.add_file "a".toList "x".toList)
    "b".toList "y".toList ⟨[], []⟩ ⟨[], []⟩).2.2.2 (by decide) (by decide)

/-! Lemmas about the macro-generated path-to-id match, and claim C8. -/

theorem firstIdx_get (l : List (Str × Asset)) (hnd : (l.map (fun pa => pa.1)).Nodup) :
    ∀ (i : Nat) (hi : i < l.length),
      firstIdx (fun pa => pa.1 == (l.get ⟨i, hi⟩).1) l = some i := by
  induction l with
  | nil => intro i hi; simp at hi
  | cons x xs ih =>
    intro i hi
    cases i with
    | zero => simp [firstIdx]
    | succ j =>
      have hj : j < xs.length := by simpa using hi
      have hx : x.1 ∉ xs.map (fun pa => pa.1) := (List.nodup_cons.mp hnd).1
      have hne : ¬ (x.1 == (xs.get ⟨j, hj⟩).1) = true := by
        intro hbeq
        exact hx (beq_iff_eq.mp hbeq ▸
          List.mem_map_of_mem (fun pa => pa.1) (xs.get_mem j hj))
      have hrec := ih (List.nodup_cons.mp hnd).2 j hj
      simp only [firstIdx, List.get_cons_succ]
      rw [if_neg hne, hrec]
      rfl

theorem firstIdx_not_mem (l : List (Str × Asset)) (s : Str)
    (h : s ∉ l.map (fun pa => pa.1)) :
    firstIdx (fun pa => pa.1 == s) l = none := by
  induction l with
  | nil => rfl
  | cons x xs ih =>
    have hx : ¬ (x.1 == s) = true := by
      intro hbeq
      apply h
      rw [List.map_cons, ← beq_iff_eq.mp hbeq]
      exact List.mem_cons_self _ _
    have hxs : s ∉ xs.map (fun pa => pa.1) := by
      intro hm
      apply h
      rw [List.map_cons]
      exact List.mem_cons_of_mem _ hm
    simp [firstIdx, hx, ih hxs]

/-- C8: for a `Setup` generated by the `assets!` macro from declarations with
pairwise-distinct paths, `path_to_id` maps the i-th declared path to
`AssetId i` and every undeclared path to `None`, and `asset_by_path` returns
the generated `AssetDef` whose `path` field is the queried declared path. -/
theorem c8_macro_setup (base : Str) (ins : List (Str × Asset))
    (hnd : (ins.map (fun pa => pa.1)).Nodup) :
    (∀ (i : Nat) (hi : i < ins.length),
        (macroSetup base ins).path_to_id (ins.get ⟨i, hi⟩).1 = some ⟨i⟩) ∧
    (∀ s, s ∉ ins.map (fun pa => pa.1) →
        (macroSetup base ins).path_to_id s = none) ∧
    (∀ (i : Nat) (hi : i < ins.length),
        (macroSetup base ins).asset_by_path (ins.get ⟨i, hi⟩).1 =
          some (macroAssetDef (ins.get ⟨i, hi⟩).1 (ins.get ⟨i, hi⟩).2) ∧
        (macroAssetDef (ins.get ⟨i, hi⟩).1 (ins.get ⟨i, hi⟩).2).path =
          (ins.get ⟨i, hi⟩).1) := by
  have hid : ∀ (i : Nat) (hi : i < ins.length),
      (macroSetup base ins).path_to_id (ins.get ⟨i, hi⟩).1 = some ⟨i⟩ := by
    intro i hi
    simp only [macroSetup, Setup.path_to_id]
    rw [firstIdx_get ins hnd i hi]
    rfl
  refine ⟨hid, ?_, ?_⟩
  · intro s hs
    simp only [macroSetup, Setup.path_to_id]
    rw [firstIdx_not_mem ins s hs]
    rfl
  · intro i hi
    refine ⟨?_, rfl⟩
    have hdef : (macroSetup base ins).defOf ⟨i⟩ =
        some (macroAssetDef (ins.get ⟨i, hi⟩).1 (ins.get ⟨i, hi⟩).2) := by
      simp only [macroSetup, Setup.defOf]
      rw [List.get?_map, List.get?_eq_get hi]
      rfl
    rw [Setup.asset_by_path, hid i hi]
    simpa using hdef

/-- Witness for C8 on a concrete two-asset setup with distinct paths. -/
theorem c8_macro_setup_witness :
    (macroSetup [] [("x".toList, Asset.mk false true false false none none),
        ("y".toList, Asset.mk false true false false none none)]).path_to_id
      "y".toList = some ⟨1⟩ ∧
    (macroSetup [] [("x".toList, Asset.mk false true false false none none),
        ("y".toList, Asset.mk false true false false none none)]).path_to_id
      "z".toList = none ∧
    (macroSetup [] [("x".toList, Asset.mk false true false false none none),
        ("y".toList, Asset.mk false true false false none none)]).asset_by_path
      "x".toList =
      some (macroAssetDef "x".toList (Asset.mk false true false false none none)) := by
  have h := c8_macro_setup []
    [("x".toList, Asset.mk false true false false none none),
     ("y".toList, Asset.mk false true false false none none)] (by decide)
  exact ⟨h.1 1 (by decide), h.2.1 "z".toList (by decide), (h.2.2 0 (by decide)).1⟩

/-! Lemmas for the resolution pipeline: Except plumbing, graph construction
bounds, and the scheduling rounds. -/

theorem exbind_error {ε α β : Type} (e : ε) (g : α → Except ε β) :
    (Except.error e >>= g) = Except.error e := rfl

theorem exbind_ok {ε α β : Type} (a : α) (g : α → Except ε β) :
    (Except.ok a >>= g) = g a := rfl

theorem contains_iff_mem (l : List Nat) (a : Nat) : l.contains a = true ↔ a ∈ l :=
  List.elem_iff

theorem contains_eq_false_iff (l : List Nat) (a : Nat) :
    l.contains a = false ↔ a ∉ l := by
  constructor
  · intro h hm
    rw [(contains_iff_mem l a).mpr hm] at h
    cases h
  · intro h
    cases hc : l.contains a with
    | false => rfl
    | true => exact absurd ((contains_iff_mem l a).mp hc) h

theorem nodup_lt_length_le (l : List Nat) (n : Nat) (hnd : l.Nodup)
    (hlt : ∀ x ∈ l, x < n) : l.length ≤ n := by
  have hcard : l.toFinset.card = l.length := List.toFinset_card_of_nodup hnd
  have hsub : l.toFinset ⊆ Finset.range n := by
    intro x hx
    rw [Finset.mem_range]
    exact hlt x (List.mem_toFinset.mp hx)
  have hle := Finset.card_le_card hsub
  rw [hcard, Finset.card_range] at hle
  exact hle

theorem mem_of_nodup_lt_length_eq (l : List Nat) (n : Nat) (hnd : l.Nodup)
    (hlt : ∀ x ∈ l, x < n) (hlen : l.length = n) : ∀ i < n, i ∈ l := by
  have hcard : l.toFinset.card = l.length := List.toFinset_card_of_nodup hnd
  have hsub : l.toFinset ⊆ Finset.range n := by
    intro x hx
    rw [Finset.mem_range]
    exact hlt x (List.mem_toFinset.mp hx)
  have heq : l.toFinset = Finset.range n :=
    Finset.eq_of_subset_of_card_le hsub (by rw [hcard, hlen, Finset.card_range])
  intro i hi
  have hm : i ∈ l.toFinset := heq ▸ Finset.mem_range.mpr hi
  exact List.mem_toFinset.mp hm

theorem resolveDeps_ok_lt (paths : List Str) (i : Nat) :
    ∀ (ds : List Str) (r : List Nat), resolveDeps paths i ds = .ok r →
      ∀ j ∈ r, j < paths.length := by
  intro ds
  induction ds with
  | nil =>
    intro r h j hj
    simp only [resolveDeps] at h
    cases h
    simp at hj
  | cons d rest ih =>
    intro r h j hj
    simp only [resolveDeps] at h
    split at h
    · cases h
    · cases hrec : resolveDeps paths i rest with
      | error e => rw [hrec, exbind_error] at h; cases h
      | ok r2 =>
        rw [hrec, exbind_ok] at h
        injection h with h
        subst h
        rcases List.mem_append.mp hj with hj1 | hj2
        · simp only [idxsOf] at hj1
          exact List.mem_range.mp (List.mem_of_mem_filter hj1)
        · exact ih r2 hrec j hj2

theorem buildDepLists_ok_length (paths : List Str) :
    ∀ (i : Nat) (es : List ExpEntry) (g : List (List Nat)),
      buildDepLists paths i es = .ok g → g.length = es.length := by
  intro i es
  induction es generalizing i with
  | nil =>
    intro g h
    simp only [buildDepLists] at h
    cases h
    rfl
  | cons e rest ih =>
    intro g h
    simp only [buildDepLists] at h
    cases hd : resolveDeps paths i e.modifier.depsList with
    | error err => rw [hd, exbind_error] at h; cases h
    | ok ds =>
      rw [hd, exbind_ok] at h
      cases ho : buildDepLists paths (i + 1) rest with
      | error err => rw [ho, exbind_error] at h; cases h
      | ok others =>
        rw [ho, exbind_ok] at h
        injection h with h
        subst h
        simp [ih (i + 1) others ho]

theorem buildDepLists_ok_lt (paths : List Str) :
    ∀ (i : Nat) (es : List ExpEntry) (g : List (List Nat)),
      buildDepLists paths i es = .ok g →
      ∀ (k : Nat), ∀ j ∈ g.getD k [], j < paths.length := by
  intro i es
  induction es generalizing i with
  | nil =>
    intro g h k j hj
    simp only [buildDepLists] at h
    cases h
    simp [List.getD] at hj
  | cons e rest ih =>
    intro g h k j hj
    simp only [buildDepLists] at h
    cases hd : resolveDeps paths i e.modifier.depsList with
    | error err => rw [hd, exbind_error] at h; cases h
    | ok ds =>
      rw [hd, exbind_ok] at h
      cases ho : buildDepLists paths (i + 1) rest with
      | error err => rw [ho, exbind_error] at h; cases h
      | ok others =>
        rw [ho, exbind_ok] at h
        injection h with h
        subst h
        cases k with
        | zero =>
          rw [List.getD_cons_zero] at hj
          exact resolveDeps_ok_lt paths i e.modifier.depsList ds hd j hj
        | succ k2 =>
          rw [List.getD_cons_succ] at hj
          exact ih (i + 1) others ho k2 j hj

theorem kahnIter_lt (g : List (List Nat)) :
    ∀ (k : Nat), ∀ i ∈ kahnIter g k, i < g.length := by
  intro k
  induction k with
  | zero => intro i hi; simp [kahnIter] at hi
  | succ k ih =>
    intro i hi
    simp only [kahnIter, kahnRound] at hi
    rcases List.mem_append.mp hi with h | h
    · exact ih i h
    · exact List.mem_range.mp (List.mem_of_mem_filter h)

theorem kahnIter_nodup (g : List (List Nat)) : ∀ (k : Nat), (kahnIter g k).Nodup := by
  intro k
  induction k with
  | zero => simp [kahnIter]
  | succ k ih =>
    simp only [kahnIter, kahnRound]
    rw [List.nodup_append]
    refine ⟨ih, List.Nodup.filter _ (List.nodup_range _), ?_⟩
    intro a ha hb
    have hp := List.of_mem_filter hb
    simp only [Bool.and_eq_true] at hp
    obtain ⟨hnc, _⟩ := hp
    have : (kahnIter g k).contains a = false := by
      cases hcc : (kahnIter g k).contains a with
      | false => rfl
      | true => rw [hcc] at hnc; cases hnc
    exact (contains_eq_false_iff _ _).mp this ha

theorem kahnIter_length_le (g : List (List Nat)) (k : Nat) :
    (kahnIter g k).length ≤ g.length :=
  nodup_lt_length_le _ _ (kahnIter_nodup g k) (kahnIter_lt g k)

theorem kahn_fix_or_len (g : List (List Nat)) :
    ∀ (k : Nat), kahnRound g (kahnIter g k) = kahnIter g k ∨
      k ≤ (kahnIter g k).length := by
  intro k
  induction k with
  | zero => exact Or.inr (Nat.zero_le _)
  | succ k ih =>
    rcases ih with hfix | hlen
    · left
      have h1 : kahnIter g (k + 1) = kahnIter g k := hfix
      rw [h1, hfix]
    · cases hnew : (List.range g.length).filter
        (fun i => !(kahnIter g k).contains i && ready g (kahnIter g k) i) with
      | nil =>
        left
        have h1 : kahnIter g (k + 1) = kahnIter g k := by
          simp only [kahnIter, kahnRound, hnew, List.append_nil]
        rw [h1]
        simp only [kahnRound, hnew, List.append_nil]
      | cons a rest =>
        right
        have h1 : (kahnIter g (k + 1)).length =
            (kahnIter g k).length + (a :: rest).length := by
          simp only [kahnIter, kahnRound, hnew, List.length_append]
        rw [h1]
        simp only [List.length_cons]
        omega

theorem kahn_stuck_fix (g : List (List Nat))
    (h : (kahnIter g g.length).length ≠ g.length) :
    kahnRound g (kahnIter g g.length) = kahnIter g g.length := by
  rcases kahn_fix_or_len g g.length with hfix | hlen
  · exact hfix
  · exact absurd (Nat.le_antisymm (kahnIter_length_le g g.length) hlen) h

theorem fix_unresolved_dep (g : List (List Nat)) (em : List Nat)
    (hfix : kahnRound g em = em) (i : Nat) (hi : i < g.length) (hnm : i ∉ em) :
    ∃ j ∈ g.getD i [], j ∉ em := by
  by_contra hall
  push_neg at hall
  have hready : ready g em i = true := by
    simp only [ready, List.all_eq_true]
    intro j hj
    exact (contains_iff_mem em j).mpr (hall j hj)
  have hcont : em.contains i = false := (contains_eq_false_iff em i).mpr hnm
  have hmem : i ∈ kahnRound g em := by
    apply List.mem_append_right
    apply List.mem_filter.mpr
    refine ⟨List.mem_range.mpr hi, ?_⟩
    rw [hcont, hready]
    rfl
  rw [hfix] at hmem
  exact hnm hmem

/-! Lemmas about dependency chains, cycles, and the stuck-state walk. -/

theorem isChainB_cons_cons (g : List (List Nat)) (x y : Nat) (rest : List Nat) :
    isChainB g (x :: y :: rest) =
      ((g.getD x []).contains y && isChainB g (y :: rest)) := rfl

theorem isChainB_tail (g : List (List Nat)) (x : Nat) (xs : List Nat)
    (h : isChainB g (x :: xs) = true) : isChainB g xs = true := by
  cases xs with
  | nil => rfl
  | cons y rest =>
    rw [isChainB_cons_cons] at h
    simp only [Bool.and_eq_true] at h
    exact h.2

theorem getLastD_irrel : ∀ (l : List Nat) (a b : Nat), l ≠ [] →
    l.getLastD a = l.getLastD b := by
  intro l a b h
  cases l with
  | nil => exact absurd rfl h
  | cons x xs => cases xs with
    | nil => rfl
    | cons y ys => rfl

theorem isChainB_append_cons (g : List (List Nat)) :
    ∀ (w : List Nat) (b : Nat) (v : List Nat), w ≠ [] →
      isChainB g (w ++ b :: v) = true →
      isChainB g w = true ∧ (g.getD (w.getLastD 0) []).contains b = true := by
  intro w
  induction w with
  | nil => intro b v h; exact absurd rfl h
  | cons u w2 ih =>
    intro b v _ hch
    cases w2 with
    | nil =>
      simp only [List.cons_append, List.nil_append] at hch
      rw [isChainB_cons_cons] at hch
      simp only [Bool.and_eq_true] at hch
      exact ⟨rfl, hch.1⟩
    | cons u2 w3 =>
      simp only [List.cons_append] at hch
      rw [isChainB_cons_cons] at hch
      simp only [Bool.and_eq_true] at hch
      obtain ⟨he, htl⟩ := hch
      obtain ⟨hc, hl⟩ := ih b v (by simp) htl
      constructor
      · rw [isChainB_cons_cons]
        simp only [Bool.and_eq_true]
        exact ⟨he, hc⟩
      · rw [List.getLastD_cons, getLastD_irrel (u2 :: w3) u 0 (by simp)]
        exact hl

theorem chain_next (g : List (List Nat)) :
    ∀ (c : List Nat), isChainB g c = true → ∀ i ∈ c,
      i = c.getLastD 0 ∨ ∃ j ∈ g.getD i [], j ∈ c := by
  intro c
  induction c with
  | nil => intro _ i hi; simp at hi
  | cons x xs ih =>
    intro hch i hi
    cases xs with
    | nil =>
      left
      simp only [List.mem_singleton] at hi
      subst hi
      rfl
    | cons y rest =>
      rcases List.mem_cons.mp hi with rfl | hmem
      · right
        rw [isChainB_cons_cons] at hch
        simp only [Bool.and_eq_true] at hch
        exact ⟨y, (contains_iff_mem _ _).mp hch.1,
          List.mem_cons_of_mem _ (List.mem_cons_self _ _)⟩
      · have htl : isChainB g (y :: rest) = true := isChainB_tail g x _ hch
        rcases ih htl i hmem with hl | ⟨j, hj, hjc⟩
        · left
          have h2 : (x :: y :: rest).getLastD 0 = (y :: rest).getLastD 0 := by
            rw [List.getLastD_cons]
            exact getLastD_irrel (y :: rest) x 0 (by simp)
          rw [hl, h2]
        · right
          exact ⟨j, hj, List.mem_cons_of_mem _ hjc⟩

theorem cycle_next (g : List (List Nat)) (c : List Nat) (hc : isCycleB g c = true) :
    ∀ i ∈ c, ∃ j ∈ g.getD i [], j ∈ c := by
  intro i hi
  cases c with
  | nil => simp at hi
  | cons a rest =>
    simp only [isCycleB, Bool.and_eq_true] at hc
    obtain ⟨hch, hwrap⟩ := hc
    rcases chain_next g (a :: rest) hch i hi with hl | h
    · refine ⟨a, ?_, List.mem_cons_self _ _⟩
      rw [hl]
      exact (contains_iff_mem _ _).mp hwrap
    · exact h

theorem cycle_not_emitted (g : List (List Nat)) (c : List Nat)
    (hc : isCycleB g c = true) : ∀ (k : Nat), ∀ i ∈ c, i ∉ kahnIter g k := by
  intro k
  induction k with
  | zero => intro i _ h; simp [kahnIter] at h
  | succ k ih =>
    intro i hi hmem
    simp only [kahnIter, kahnRound] at hmem
    rcases List.mem_append.mp hmem with h | h
    · exact ih i hi h
    · have hp := List.of_mem_filter h
      simp only [Bool.and_eq_true] at hp
      obtain ⟨_, hready⟩ := hp
      obtain ⟨j, hj, hjc⟩ := cycle_next g c hc i hi
      have hcj : (kahnIter g k).contains j = true := by
        simp only [ready, List.all_eq_true] at hready
        exact hready j hj
      exact ih j hjc ((contains_iff_mem _ _).mp hcj)

theorem stuckWalk_cons (g : List (List Nat)) (em : List Nat) (k i : Nat) :
    ∃ t, stuckWalk g em k i = i :: t := by
  cases k with
  | zero => exact ⟨[], rfl⟩
  | succ k =>
    simp only [stuckWalk]
    cases stepDep g em i with
    | none => exact ⟨[], rfl⟩
    | some j => exact ⟨_, rfl⟩

theorem stepDep_spec (g : List (List Nat)) (em : List Nat) (i : Nat)
    (h : ∃ j ∈ g.getD i [], j ∉ em) :
    ∃ j, stepDep g em i = some j ∧ j ∈ g.getD i [] ∧ j ∉ em := by
  obtain ⟨j0, hj0, hj0n⟩ := h
  have hsome : (stepDep g em i).isSome := by
    rw [stepDep, List.find?_isSome]
    refine ⟨j0, hj0, ?_⟩
    rw [(contains_eq_false_iff em j0).mpr hj0n]
    rfl
  obtain ⟨j, hj⟩ := Option.isSome_iff_exists.mp hsome
  refine ⟨j, hj, List.mem_of_find?_eq_some hj, ?_⟩
  have hpj := List.find?_some hj
  intro hmem
  rw [(contains_iff_mem em j).mpr hmem] at hpj
  cases hpj

theorem stuckWalk_props (g : List (List Nat)) (em : List Nat)
    (hbound : ∀ i j, j ∈ g.getD i [] → j < g.length)
    (hunres : ∀ i, i < g.length → i ∉ em → ∃ j ∈ g.getD i [], j ∉ em) :
    ∀ (k i : Nat), i < g.length → i ∉ em →
      (stuckWalk g em k i).length = k + 1 ∧
      isChainB g (stuckWalk g em k i) = true ∧
      ∀ x ∈ stuckWalk g em k i, x < g.length := by
  intro k
  induction k with
  | zero =>
    intro i hi hni
    refine ⟨rfl, rfl, ?_⟩
    intro x hx
    simp only [stuckWalk, List.mem_singleton] at hx
    subst hx
    exact hi
  | succ k ih =>
    intro i hi hni
    obtain ⟨j, hjstep, hjdep, hjni⟩ := stepDep_spec g em i (hunres i hi hni)
    have hwalk : stuckWalk g em (k + 1) i = i :: stuckWalk g em k j := by
      simp only [stuckWalk, hjstep]
    obtain ⟨hlen, hch, hmem⟩ := ih j (hbound i j hjdep) hjni
    rw [hwalk]
    refine ⟨by simp [hlen], ?_, ?_⟩
    · obtain ⟨t, ht⟩ := stuckWalk_cons g em k j
      rw [ht]
      rw [ht] at hch
      rw [isChainB_cons_cons]
      simp only [Bool.and_eq_true]
      exact ⟨(contains_iff_mem _ _).mpr hjdep, hch⟩
    · intro x hx
      rcases List.mem_cons.mp hx with rfl | hx2
      · exact hi
      · exact hmem x hx2

theorem firstRepeat_none_nodup : ∀ (l : List Nat), firstRepeat l = none → l.Nodup := by
  intro l
  induction l with
  | nil => intro _; exact List.nodup_nil
  | cons x xs ih =>
    intro h
    by_cases hx : x ∈ xs
    · simp [firstRepeat, hx] at h
    · simp only [firstRepeat, if_neg hx] at h
      exact List.nodup_cons.mpr ⟨hx, ih h⟩

theorem takeWhile_bne_split (x : Nat) : ∀ (xs : List Nat), x ∈ xs →
    ∃ zs, xs = xs.takeWhile (fun y => y != x) ++ x :: zs := by
  intro xs
  induction xs with
  | nil => intro h; simp at h
  | cons a rest ih =>
    intro h
    by_cases ha : a = x
    · subst ha
      refine ⟨rest, ?_⟩
      simp [List.takeWhile]
    · have hrest : x ∈ rest := by
        rcases List.mem_cons.mp h with h1 | h2
        · exact absurd h1.symm ha
        · exact h2
      obtain ⟨zs, hzs⟩ := ih hrest
      refine ⟨zs, ?_⟩
      have hpa : (a != x) = true := bne_iff_ne.mpr ha
      simp only [List.takeWhile, hpa, List.cons_append]
      exact congrArg (a :: ·) hzs

theorem firstRepeat_cycle (g : List (List Nat)) :
    ∀ (l c : List Nat), isChainB g l = true → firstRepeat l = some c →
      isCycleB g c = true := by
  intro l
  induction l with
  | nil => intro c _ h; cases h
  | cons x xs ih =>
    intro c hch hfr
    by_cases hx : x ∈ xs
    · simp only [firstRepeat, if_pos hx, Option.some.injEq] at hfr
      subst hfr
      obtain ⟨zs, hzs⟩ := takeWhile_bne_split x xs hx
      have hch2 : isChainB g ((x :: xs.takeWhile (fun y => y != x)) ++ x :: zs) = true := by
        rw [List.cons_append, ← hzs]
        exact hch
      obtain ⟨hcw, hlast⟩ :=
        isChainB_append_cons g (x :: xs.takeWhile (fun y => y != x)) x zs (by simp) hch2
      simp only [isCycleB, Bool.and_eq_true]
      exact ⟨hcw, hlast⟩
    · simp only [firstRepeat, if_neg hx] at hfr
      exact ih c (isChainB_tail g x xs hch) hfr

theorem topoOrder_cyclic (g : List (List Nat))
    (hbound : ∀ i j, j ∈ g.getD i [] → j < g.length)
    (c0 : List Nat) (hc : isCycleB g c0 = true) (hlt : ∀ i ∈ c0, i < g.length) :
    ∃ c, topoOrder g = Except.error (.cyclicDependency c) ∧ isCycleB g c = true := by
  have hne : c0 ≠ [] := by
    intro h
    rw [h] at hc
    cases hc
  obtain ⟨i0, hi0⟩ := List.exists_mem_of_ne_nil c0 hne
  have hi0n : i0 ∉ kahnIter g g.length := cycle_not_emitted g c0 hc g.length i0 hi0
  have hlen : (kahnIter g g.length).length ≠ g.length := by
    intro hl
    exact hi0n (mem_of_nodup_lt_length_eq _ _ (kahnIter_nodup g _) (kahnIter_lt g _)
      hl i0 (hlt i0 hi0))
  have hfix := kahn_stuck_fix g hlen
  have hunres : ∀ i, i < g.length → i ∉ kahnIter g g.length →
      ∃ j ∈ g.getD i [], j ∉ kahnIter g g.length :=
    fun i hi hni => fix_unresolved_dep g _ hfix i hi hni
  have hi0r : i0 ∈ (List.range g.length).filter
      (fun i => !(kahnIter g g.length).contains i) := by
    apply List.mem_filter.mpr
    refine ⟨List.mem_range.mpr (hlt i0 hi0), ?_⟩
    rw [(contains_eq_false_iff _ _).mpr hi0n]
    rfl
  cases hrem : (List.range g.length).filter
      (fun i => !(kahnIter g g.length).contains i) with
  | nil =>
    rw [hrem] at hi0r
    cases hi0r
  | cons r rest =>
    have hrmem : r ∈ (List.range g.length).filter
        (fun i => !(kahnIter g g.length).contains i) := by
      rw [hrem]
      exact List.mem_cons_self _ _
    have hf := List.mem_filter.mp hrmem
    have hrlt : r < g.length := List.mem_range.mp hf.1
    have hrni : r ∉ kahnIter g g.length := by
      apply (contains_eq_false_iff _ _).mp
      cases hcc : (kahnIter g g.length).contains r with
      | false => rfl
      | true =>
        have := hf.2
        rw [hcc] at this
        cases this
    obtain ⟨hwlen, hwch, hwmem⟩ :=
      stuckWalk_props g (kahnIter g g.length) hbound hunres (g.length + 1) r hrlt hrni
    cases hfr : firstRepeat (stuckWalk g (kahnIter g g.length) (g.length + 1) r) with
    | none =>
      exfalso
      have hnd := firstRepeat_none_nodup _ hfr
      have hle := nodup_lt_length_le _ g.length hnd hwmem
      rw [hwlen] at hle
      omega
    | some c =>
      refine ⟨c, ?_, firstRepeat_cycle g _ c hwch hfr⟩
      simp only [topoOrder]
      rw [if_neg hlen]
      simp only [extractCycle, hrem, hfr, Option.getD_some]

/-! Lemmas about the resolution phase and the end-to-end pipeline. -/

theorem resolveOne_fst (entries : List ExpEntry) (paths : List Str)
    (fs : Str → Option Bytes) (finals : List (Nat × Str)) (i : Nat)
    (r : Nat × Str × Bytes) (h : resolveOne entries paths fs finals i = .ok r) :
    r.1 = i := by
  simp only [resolveOne] at h
  cases hl : loadContent fs i (entries.getD i default).source with
  | error e => rw [hl, exbind_error] at h; cases h
  | ok content =>
    rw [hl, exbind_ok] at h
    cases hh : applyHash i (entries.getD i default).path_hash
        (entries.getD i default).declaredPath
        (applyModifier paths finals (entries.getD i default).modifier content) with
    | error e => rw [hh, exbind_error] at h; cases h
    | ok fp =>
      rw [hh, exbind_ok] at h
      injection h with h
      subst h
      rfl

theorem resolveAll_map_fst (entries : List ExpEntry) (paths : List Str)
    (fs : Str → Option Bytes) :
    ∀ (order : List Nat) (finals : List (Nat × Str)) (out : List (Nat × Str × Bytes)),
      resolveAll entries paths fs order finals = .ok out →
      out.map (fun r => r.1) = order := by
  intro order
  induction order with
  | nil =>
    intro finals out h
    simp only [resolveAll] at h
    cases h
    rfl
  | cons i rest ih =>
    intro finals out h
    simp only [resolveAll] at h
    cases hr : resolveOne entries paths fs finals i with
    | error e => rw [hr, exbind_error] at h; cases h
    | ok r =>
      rw [hr, exbind_ok] at h
      cases hrec : resolveAll entries paths fs rest ((i, r.2.1) :: finals) with
      | error e => rw [hrec, exbind_error] at h; cases h
      | ok out2 =>
        rw [hrec, exbind_ok] at h
        injection h with h
        subst h
        simp only [List.map_cons]
        rw [resolveOne_fst entries paths fs finals i r hr, ih _ _ hrec]

theorem topoOrder_ok_facts (g : List (List Nat)) (order : List Nat)
    (h : topoOrder g = .ok order) :
    order.length = g.length ∧ order.Nodup ∧ ∀ i < g.length, i ∈ order := by
  simp only [topoOrder] at h
  split at h
  · injection h with h
    subst h
    rename_i hlen
    exact ⟨hlen, kahnIter_nodup g _,
      fun i hi => mem_of_nodup_lt_length_eq _ _ (kahnIter_nodup g _)
        (kahnIter_lt g _) hlen i hi⟩
  · cases h

/-! Claim theorems C3 and C4: cycle detection and the all-or-nothing result
of the build pipeline. -/

/-- C3: whenever the dependency declarations of a builder configuration
resolve to a graph containing a cycle, the build fails with a
cyclic-dependency error carrying a genuine complete cycle of the graph — it
never produces an assets table for such a configuration (and, the model
being a total function, it always terminates). -/
theorem c3_build_cycle_error (b : Builder) (fs : Str → Option Bytes)
    (g : List (List Nat)) (c0 : List Nat)
    (hg : buildDepLists (b.expand.map fun e => e.declaredPath) 0 b.expand = .ok g)
    (hc : isCycleB g c0 = true) (hlt : ∀ i ∈ c0, i < g.length) :
    ∃ c, b.buildModel fs = .error (.cyclicDependency c) ∧ isCycleB g c = true := by
  have hplen : (b.expand.map fun e => e.declaredPath).length = g.length := by
    rw [List.length_map]
    exact (buildDepLists_ok_length _ 0 _ _ hg).symm
  have hbound : ∀ i j, j ∈ g.getD i [] → j < g.length := by
    intro i j hj
    have h1 := buildDepLists_ok_lt _ 0 _ _ hg i j hj
    rw [hplen] at h1
    exact h1
  obtain ⟨c, herr, hcyc⟩ := topoOrder_cyclic g hbound c0 hc hlt
  refine ⟨c, ?_, hcyc⟩
  simp only [Builder.buildModel]
  rw [hg, exbind_ok, herr, exbind_error]

/-- Witness for C3 on the spec's mutual-dependency scenario: two entries
`a` and `b` whose path-fixup modifiers each declare the other's declared
path; the build returns a cyclic-dependency error with a genuine cycle. -/
theorem c3_build_cycle_error_witness :
    ∃ c, Builder.buildModel
        { assets := [
            { kind := .single "a".toList (.embedded []),
              path_hash := .none, modifier := .pathFixup ["b".toList] },
            { kind := .single "b".toList (.embedded []),
              path_hash := .none, modifier := .pathFixup ["a".toList] }] }
        (fun _ => none) = .error (.cyclicDependency c) ∧
      isCycleB [[1], [0]] c = true :=
  c3_build_cycle_error
    { assets := [
        { kind := .single "a".toList (.embedded []),
          path_hash := .none, modifier := .pathFixup ["b".toList] },
        { kind := .single "b".toList (.embedded []),
          path_hash := .none, modifier := .pathFixup ["a".toList] }] }
    (fun _ => none) [[1], [0]] [0, 1] (by rfl) (by rfl) (by decide)

/-- C4: the build is all-or-nothing — for every configuration and
filesystem state it returns either exactly one build error or a complete
assets table holding exactly one resolved record for every expanded entry;
no partial table is ever produced. -/
theorem c4_build_all_or_nothing (b : Builder) (fs : Str → Option Bytes) :
    (∃ e, b.buildModel fs = .error e) ∨
    (∃ t, b.buildModel fs = .ok t ∧ t.length = b.expand.length ∧
      ∀ i < b.expand.length, ∃ r ∈ t, r.1 = i) := by
  cases hres : b.buildModel fs with
  | error e => exact Or.inl ⟨e, rfl⟩
  | ok t =>
    right
    refine ⟨t, rfl, ?_⟩
    simp only [Builder.buildModel] at hres
    cases hg : buildDepLists (b.expand.map fun e => e.declaredPath) 0 b.expand with
    | error e => rw [hg, exbind_error] at hres; cases hres
    | ok g =>
      rw [hg, exbind_ok] at hres
      cases ht : topoOrder g with
      | error e => rw [ht, exbind_error] at hres; cases hres
      | ok order =>
        rw [ht, exbind_ok] at hres
        cases hra : resolveAll b.expand (b.expand.map fun e => e.declaredPath)
            fs order [] with
        | error e => rw [hra, exbind_error] at hres; cases hres
        | ok records =>
          rw [hra, exbind_ok] at hres
          cases hdup : findDup (records.map fun r => r.2.1) with
          | some p => rw [hdup] at hres; cases hres
          | none =>
            rw [hdup] at hres
            injection hres with hres
            subst hres
            obtain ⟨hlen, hnd, hcov⟩ := topoOrder_ok_facts g order ht
            have hmap := resolveAll_map_fst _ _ _ _ _ _ hra
            have hglen : g.length = b.expand.length :=
              buildDepLists_ok_length _ 0 _ _ hg
            constructor
            · calc records.length = (records.map (fun r => r.1)).length := by simp
                _ = order.length := by rw [hmap]
                _ = g.length := hlen
                _ = b.expand.length := hglen
            · intro i hi
              have hio : i ∈ order := hcov i (by rw [hglen]; exact hi)
              rw [← hmap] at hio
              obtain ⟨r, hr, hri⟩ := List.mem_map.mp hio
              exact ⟨r, hr, hri⟩
